import Mathlib

/-!
# HabitStore: a shallow embedding of the file-backed habit persistence layer

This file embeds the `HabitStore` class (src: `HabitStore.ts`) in Lean 4 and
proves its specified properties.  The store keeps an in-memory JavaScript
`Map<string, Habit>` mirrored to a JSON document on disk; every mutating
operation updates the map and then persists the whole collection.

Modelling choices:
* A JavaScript `Map` is an insertion-ordered association list with unique
  keys.  `Map.set` on an existing key replaces the value in place (the key
  keeps its original position); on a fresh key it appends.  `Map.delete`
  removes the entry.  `new Map(pairs)` folds `set` over the pairs, so a later
  pair with a duplicate key overwrites an earlier one.
* The backing file is an inductive `FsFile`: absent, unreadable, textually
  not JSON, the valid JSON document `null` (the one parse result on which
  the `data.habits` property access itself throws a `TypeError` before the
  `Array.isArray` guard), any other JSON whose `habits` field is not an
  array, or a well-formed document holding the habit list.  `fs.readFile`
  failing with `ENOENT` corresponds to `FsFile.absent`; any other read
  error to `FsFile.readFailure`.
* `crypto.randomUUID()` and `new Date().toISOString()` are external
  collaborators; the operations that call them take the generated id and the
  current timestamp as explicit arguments (`genId`, `now`).
* Errors thrown by the class become `Except` errors carrying the message
  string built exactly as the source builds it.
* Each operation that can write to disk returns the document it wrote (or
  `none` when the source performs no write on that path), so "persists" and
  "no write to disk" are statable.
-/

namespace Streakr

/-- The frequency enumeration from `types.ts`: daily, weekly or custom. -/
inductive Frequency where
  | daily
  | weekly
  | custom
deriving DecidableEq, Repr

/-- The `Habit` record from `types.ts`.  `description` is an optional field,
so it is an `Option`; `completions` is the order-preserving list of
`YYYY-MM-DD` strings; `createdAt` is an ISO timestamp string. -/
structure Habit where
  id : String
  name : String
  description : Option String := none
  frequency : Frequency
  completions : List String
  createdAt : String
deriving DecidableEq, Repr

/-- The in-memory `Map<string, Habit>`: an insertion-ordered association
list.  All operations below maintain key uniqueness, as a JavaScript `Map`
does by construction. -/
abbrev HabitMap := List (String × Habit)

/-- `Map.prototype.get`: the value at the first entry whose key matches. -/
def mapGet (m : HabitMap) (k : String) : Option Habit :=
  match m with
  | [] => none
  | (k₀, v₀) :: rest => if k₀ = k then some v₀ else mapGet rest k

/-- `Map.prototype.has`. -/
def mapHas (m : HabitMap) (k : String) : Bool :=
  (mapGet m k).isSome

/-- `Map.prototype.set`: replace the value at an existing key in place, or
append a new entry at the end. -/
def mapSet (m : HabitMap) (k : String) (v : Habit) : HabitMap :=
  match m with
  | [] => [(k, v)]
  | (k₀, v₀) :: rest => if k₀ = k then (k₀, v) :: rest else (k₀, v₀) :: mapSet rest k v

/-- `Map.prototype.delete`: remove the entry at the key (a `Map` holds at
most one). -/
def mapDelete (m : HabitMap) (k : String) : HabitMap :=
  match m with
  | [] => []
  | (k₀, v₀) :: rest => if k₀ = k then rest else (k₀, v₀) :: mapDelete rest k

/-- `Array.from(map.values())`: the values in insertion order. -/
def mapValues (m : HabitMap) : List Habit :=
  m.map Prod.snd

/-- `map.size`: the number of entries. -/
def mapSize (m : HabitMap) : Nat :=
  m.length

/-- `new Map(pairs)`: fold `set` over the pairs, so later duplicate keys
overwrite earlier ones. -/
def mapOfPairs (ps : List (String × Habit)) : HabitMap :=
  ps.foldl (fun m p => mapSet m p.1 p.2) []

/-- A `Map` has pairwise-distinct keys; every map the store builds satisfies
this. -/
def MapWF (m : HabitMap) : Prop :=
  (m.map Prod.fst).Nodup

/-- In every map the store builds, each entry is keyed by its record's own
`id` (load keys by `h.id`; `addHabit` keys by `habit.id`; `updateHabit` and
`logCompletion` store a record whose `id` is the lookup key). -/
def KeyConsistent (m : HabitMap) : Prop :=
  ∀ p ∈ m, (p.2).id = p.1

/-- The state of the backing file as `load` can observe it.  `nullDoc` is a
file whose content is the valid JSON document `null`: parsing succeeds, and
then the `data.habits` property access itself throws a `TypeError`, because
`null` is the one parse result without properties.  `habitsNotArray` covers
every other parsed document whose `habits` field is not an array (objects
with a wrong-typed or missing `habits`, numbers, strings, booleans,
arrays — property access on those yields `undefined` or a non-array, so
`Array.isArray` is reached and fails). -/
inductive FsFile where
  | absent
  | readFailure (e : String)
  | notJSON (raw : String)
  | nullDoc
  | habitsNotArray
  | doc (habits : List Habit)
deriving DecidableEq, Repr

/-- Errors surfaced by the store: the corrupt-data and not-found errors it
throws itself (carrying the exact message it builds), propagated
storage-layer errors, and the engine-raised `TypeError` escaping from the
`habits` access on a JSON `null` document (its message is produced by the
runtime, not by the store, and does not contain the file path). -/
inductive StoreError where
  | corrupt (msg : String)
  | notFound (msg : String)
  | io (e : String)
  | typeError
deriving DecidableEq, Repr

namespace HabitStore

/-- The message of `load`'s invalid-JSON error, built as in the source. -/
def corruptJSONMsg (filePath : String) : String :=
  "Corrupt data file at " ++ filePath ++ ": invalid JSON"

/-- The message of `load`'s wrong-shape error, built as in the source. -/
def corruptShapeMsg (filePath : String) : String :=
  "Corrupt data file at " ++ filePath ++ ": \"habits\" must be an array"

/-- The message of the not-found error thrown by `updateHabit` and
`logCompletion`, built as in the source. -/
def notFoundMsg (id : String) : String :=
  "Habit not found: " ++ id

/-- `HabitStore.load`: read the backing file.  `ENOENT` initialises an empty
map; unparseable text raises the corrupt-JSON error naming the path; a
parsed `null` makes the `data.habits` access throw a `TypeError` before the
`Array.isArray` guard runs; any other non-array `habits` field raises the
corrupt-shape error naming the path; any other read error is rethrown; on
success the map is rebuilt from the habit list keyed by each record's `id`.
The returned `FsFile` is the file after the call — `load` never writes. -/
def load (filePath : String) (file : FsFile) : Except StoreError (HabitMap × FsFile) :=
  match file with
  | .absent => .ok ([], .absent)
  | .readFailure e => .error (.io e)
  | .notJSON _ => .error (.corrupt (corruptJSONMsg filePath))
  | .nullDoc => .error .typeError
  | .habitsNotArray => .error (.corrupt (corruptShapeMsg filePath))
  | .doc hs => .ok (mapOfPairs (hs.map fun h => (h.id, h)), .doc hs)

/-- `HabitStore.save`: the document written over the target path — the
current map's values as the full collection. -/
def save (m : HabitMap) : FsFile :=
  .doc (mapValues m)

/-- The caller's argument to `addHabit`: `name` and `frequency` required,
`id`, `completions`, `createdAt` and `description` optional. -/
structure AddAttrs where
  name : String
  frequency : Frequency
  id : Option String := none
  completions : Option (List String) := none
  createdAt : Option String := none
  description : Option String := none
deriving DecidableEq, Repr

/-- `HabitStore.addHabit`: build the record (defaulting `id` to the freshly
generated `genId`, `completions` to `[]`, `createdAt` to `now`, and
including `description` exactly when supplied), insert it keyed by its id,
persist, and return it together with the new map and the written file. -/
def addHabit (m : HabitMap) (attrs : AddAttrs) (genId : String) (now : String) :
    Habit × HabitMap × FsFile :=
  let habit : Habit :=
    { id := attrs.id.getD genId
      name := attrs.name
      frequency := attrs.frequency
      completions := attrs.completions.getD []
      createdAt := attrs.createdAt.getD now
      description := attrs.description }
  let m₁ := mapSet m habit.id habit
  (habit, m₁, save m₁)

/-- `HabitStore.getHabit`: the record at `id`, or `none`. -/
def getHabit (m : HabitMap) (id : String) : Option Habit :=
  mapGet m id

/-- `HabitStore.getAllHabits`: every record, in insertion order. -/
def getAllHabits (m : HabitMap) : List Habit :=
  mapValues m

/-- A `Partial<Habit>` patch for `updateHabit`: each field optionally
present. -/
structure HabitPatch where
  id : Option String := none
  name : Option String := none
  description : Option String := none
  frequency : Option Frequency := none
  completions : Option (List String) := none
  createdAt : Option String := none
deriving DecidableEq, Repr

/-- The object spread in `updateHabit`: merge the patch's present fields
over the existing record, then unconditionally re-force `id` to the lookup
key (so `patch.id` is ignored). -/
def mergePatch (existing : Habit) (patch : HabitPatch) (id : String) : Habit :=
  { id := id
    name := patch.name.getD existing.name
    description := match patch.description with
      | some d => some d
      | none => existing.description
    frequency := patch.frequency.getD existing.frequency
    completions := patch.completions.getD existing.completions
    createdAt := patch.createdAt.getD existing.createdAt }

/-- `HabitStore.updateHabit`: throw not-found when `id` is absent; otherwise
store the merged record, persist, and return it with the new map and the
written file. -/
def updateHabit (m : HabitMap) (id : String) (patch : HabitPatch) :
    Except StoreError (Habit × HabitMap × FsFile) :=
  match mapGet m id with
  | none => .error (.notFound (notFoundMsg id))
  | some existing =>
      let updated := mergePatch existing patch id
      let m₁ := mapSet m id updated
      .ok (updated, m₁, save m₁)

/-- `HabitStore.deleteHabit`: `false` and no change when `id` is absent;
otherwise remove, persist and return `true`.  The `Option FsFile` is the
write performed (`none` on the absent branch, which never saves). -/
def deleteHabit (m : HabitMap) (id : String) : Bool × HabitMap × Option FsFile :=
  if mapHas m id then
    let m₁ := mapDelete m id
    (true, m₁, some (save m₁))
  else
    (false, m, none)

/-- `HabitStore.logCompletion`: throw not-found when `id` is absent; when
`date` is already among the habit's completions do nothing and write
nothing; otherwise push `date` onto the completions and persist. -/
def logCompletion (m : HabitMap) (id : String) (date : String) :
    Except StoreError (HabitMap × Option FsFile) :=
  match mapGet m id with
  | none => .error (.notFound (notFoundMsg id))
  | some habit =>
      if date ∈ habit.completions then
        .ok (m, none)
      else
        let habit₁ := { habit with completions := habit.completions ++ [date] }
        let m₁ := mapSet m id habit₁
        .ok (m₁, some (save m₁))

/-- The in-memory map after a `logCompletion` call: unchanged when the call
throws (the source throws before mutating). -/
def logCompletionMap (m : HabitMap) (id : String) (date : String) : HabitMap :=
  match logCompletion m id date with
  | .ok (m₁, _) => m₁
  | .error _ => m

/-- The in-memory map after an `updateHabit` call: unchanged when the call
throws (the source throws before mutating). -/
def updateHabitMap (m : HabitMap) (id : String) (patch : HabitPatch) : HabitMap :=
  match updateHabit m id patch with
  | .ok (_, m₁, _) => m₁
  | .error _ => m

end HabitStore

/-! ## Basic lemmas about the `Map` model -/

theorem mapGet_mapSet_self (m : HabitMap) (k : String) (v : Habit) :
    mapGet (mapSet m k v) k = some v := by
  induction m with
  | nil => simp [mapSet, mapGet]
  | cons p rest ih =>
      obtain ⟨k₀, v₀⟩ := p
      by_cases hk : k₀ = k
      · simp [mapSet, mapGet, hk]
      · simp [mapSet, mapGet, hk, ih]

theorem mapGet_mapSet_ne (m : HabitMap) (k k' : String) (v : Habit) (hne : k ≠ k') :
    mapGet (mapSet m k v) k' = mapGet m k' := by
  induction m with
  | nil => simp [mapSet, mapGet, hne]
  | cons p rest ih =>
      obtain ⟨k₀, v₀⟩ := p
      by_cases hk : k₀ = k
      · subst hk
        simp [mapSet, mapGet, hne]
      · simp [mapSet, mapGet, hk, ih]

theorem mapSet_append_of_not_mem (m : HabitMap) (k : String) (v : Habit)
    (hk : k ∉ m.map Prod.fst) :
    mapSet m k v = m ++ [(k, v)] := by
  induction m with
  | nil => simp [mapSet]
  | cons p rest ih =>
      obtain ⟨k₀, v₀⟩ := p
      simp only [List.map_cons, List.mem_cons, not_or] at hk
      have hne : ¬ k₀ = k := fun h => hk.1 h.symm
      simp [mapSet, hne, ih hk.2]

theorem foldl_mapSet_fresh (ps : List (String × Habit)) (acc : HabitMap)
    (hfresh : ∀ p ∈ ps, p.1 ∉ acc.map Prod.fst)
    (hnd : (ps.map Prod.fst).Nodup) :
    ps.foldl (fun m p => mapSet m p.1 p.2) acc = acc ++ ps := by
  induction ps generalizing acc with
  | nil => simp
  | cons p rest ih =>
      simp only [List.foldl_cons]
      rw [mapSet_append_of_not_mem acc p.1 p.2 (hfresh p (by simp))]
      rw [ih (acc ++ [(p.1, p.2)])]
      · simp
      · intro q hq
        simp only [List.map_append, List.mem_append, not_or]
        refine ⟨hfresh q (by simp [hq]), ?_⟩
        simp only [List.map_cons, List.nodup_cons] at hnd
        intro hmem
        simp only [List.map_cons, List.map_nil, List.mem_cons, List.not_mem_nil,
          or_false] at hmem
        exact hnd.1 (hmem ▸ List.mem_map_of_mem Prod.fst hq)
      · simp only [List.map_cons, List.nodup_cons] at hnd
        exact hnd.2

theorem mapOfPairs_eq_self (m : HabitMap) (hwf : MapWF m) :
    mapOfPairs m = m := by
  have := foldl_mapSet_fresh m [] (by simp) hwf
  simpa [mapOfPairs] using this

theorem mem_of_mapGet (m : HabitMap) (k : String) (v : Habit)
    (hg : mapGet m k = some v) : (k, v) ∈ m := by
  induction m with
  | nil => simp [mapGet] at hg
  | cons p rest ih =>
      obtain ⟨k₀, v₀⟩ := p
      by_cases hk : k₀ = k
      · subst hk
        have hv : v₀ = v := by simpa [mapGet] using hg
        subst hv
        exact List.mem_cons_self _ _
      · simp only [mapGet, if_neg hk] at hg
        exact List.mem_cons_of_mem _ (ih hg)

theorem mapGet_eq_none_of_not_mem (m : HabitMap) (k : String)
    (hk : k ∉ m.map Prod.fst) : mapGet m k = none := by
  induction m with
  | nil => rfl
  | cons p rest ih =>
      obtain ⟨k₀, v₀⟩ := p
      simp only [List.map_cons, List.mem_cons, not_or] at hk
      have hne : ¬ k₀ = k := fun h => hk.1 h.symm
      simp [mapGet, hne, ih hk.2]

theorem mem_mapSet (m : HabitMap) (k : String) (v : Habit) (p : String × Habit)
    (hp : p ∈ mapSet m k v) : p.2 = v ∨ p ∈ m := by
  induction m with
  | nil => simp only [mapSet, List.mem_singleton] at hp; left; rw [hp]
  | cons q rest ih =>
      obtain ⟨k₀, v₀⟩ := q
      by_cases hk : k₀ = k
      · simp only [mapSet, if_pos hk, List.mem_cons] at hp
        rcases hp with hp | hp
        · left; rw [hp]
        · right; exact List.mem_cons_of_mem _ hp
      · simp only [mapSet, if_neg hk, List.mem_cons] at hp
        rcases hp with hp | hp
        · right; rw [hp]; exact List.mem_cons_self _ _
        · rcases ih hp with h | h
          · left; exact h
          · right; exact List.mem_cons_of_mem _ h

/-! ## C1: save/load round-trip -/

/-- C1: for every in-memory mapping of habits (with the `Map`'s unique keys
and each record keyed by its own id, as the store always maintains),
`load`ing the document `save` produces rebuilds exactly the same mapping:
the same entries, hence the same set of ids each bound to a record with the
same field values. -/
theorem save_load_roundtrip (filePath : String) (m : HabitMap)
    (hwf : MapWF m) (hkc : KeyConsistent m) :
    HabitStore.load filePath (HabitStore.save m) = .ok (m, HabitStore.save m) := by
  simp only [HabitStore.save, HabitStore.load]
  have hpairs : (mapValues m).map (fun h => (h.id, h)) = m := by
    simp only [mapValues, List.map_map]
    have : ∀ p ∈ m, ((fun h => (h.id, h)) ∘ Prod.snd) p = id p := by
      intro p hp
      have := hkc p hp
      cases p with
      | mk k v => simp_all
    rw [List.map_congr_left this, List.map_id]
  rw [hpairs, mapOfPairs_eq_self m hwf]

/-- Witness for C1 at a concrete two-habit mapping. -/
theorem save_load_roundtrip_witness :
    HabitStore.load "/tmp/habits.json"
      (HabitStore.save
        [("a", { id := "a", name := "Run", frequency := .daily,
                 completions := ["2024-03-15"], createdAt := "t1" }),
         ("b", { id := "b", name := "Read", frequency := .weekly,
                 completions := [], createdAt := "t2" })]) =
      .ok ([("a", { id := "a", name := "Run", frequency := .daily,
                    completions := ["2024-03-15"], createdAt := "t1" }),
            ("b", { id := "b", name := "Read", frequency := .weekly,
                    completions := [], createdAt := "t2" })],
           HabitStore.save
             [("a", { id := "a", name := "Run", frequency := .daily,
                      completions := ["2024-03-15"], createdAt := "t1" }),
              ("b", { id := "b", name := "Read", frequency := .weekly,
                      completions := [], createdAt := "t2" })]) := by
  apply save_load_roundtrip
  · unfold MapWF
    decide
  · unfold KeyConsistent
    decide

/-! ## C6: load's error contract -/

/-- True exactly when a `load` outcome is one of the store's own
corrupt-data errors. -/
def isCorruptResult (r : Except StoreError (HabitMap × FsFile)) : Bool :=
  match r with
  | .error (.corrupt _) => true
  | _ => false

/-- Counterexample to C6 as stated: a backing file whose content is the
valid JSON document `null` has a `habits` field that is not a sequence, yet
`load` does not fail with a corrupt-data error naming the path — the
`data.habits` access on `null` throws a `TypeError` raised by the runtime,
whose message does not contain the file path. -/
theorem load_null_typeError_counterexample :
    HabitStore.load "/tmp/habits.json" FsFile.nullDoc =
      .error StoreError.typeError ∧
    isCorruptResult (HabitStore.load "/tmp/habits.json" FsFile.nullDoc) = false := by
  constructor
  · rfl
  · rfl

/-- C6 amended: a missing backing file loads as the empty mapping and the
file stays absent (load does not create it); unparseable content fails with
a corrupt-data error whose message contains the file path; a file parsing
to JSON `null` instead escapes with the runtime's `TypeError` from the
`habits` access (not a corrupt-data error, and without the path in the
message); every other document whose `habits` field is not a sequence fails
with a corrupt-data error whose message contains the file path; any other
read failure is propagated unchanged. -/
theorem load_error_contract (filePath raw e : String) :
    HabitStore.load filePath .absent = .ok ([], .absent) ∧
    (∃ pre post, HabitStore.load filePath (.notJSON raw) =
        .error (.corrupt (pre ++ filePath ++ post))) ∧
    HabitStore.load filePath .nullDoc = .error .typeError ∧
    isCorruptResult (HabitStore.load filePath .nullDoc) = false ∧
    (∃ pre post, HabitStore.load filePath .habitsNotArray =
        .error (.corrupt (pre ++ filePath ++ post))) ∧
    HabitStore.load filePath (.readFailure e) = .error (.io e) := by
  refine ⟨rfl, ⟨"Corrupt data file at ", ": invalid JSON", rfl⟩, rfl, rfl,
    ⟨"Corrupt data file at ", ": \"habits\" must be an array", rfl⟩, rfl⟩

/-! ## C7: load keys by id, last write wins -/

/-- Specification-side function for C7: the last habit in the persisted
sequence whose `id` matches, i.e. the record the spec says should win. -/
def lastWithId (hs : List Habit) (id : String) : Option Habit :=
  match hs with
  | [] => none
  | h :: rest =>
      match lastWithId rest id with
      | some v => some v
      | none => if h.id = id then some h else none

/-- The last value bound to key `k` in a pair list, if any. -/
def lastPair (ps : List (String × Habit)) (k : String) : Option Habit :=
  match ps with
  | [] => none
  | p :: rest =>
      match lastPair rest k with
      | some v => some v
      | none => if p.1 = k then some p.2 else none

theorem mapGet_foldl_mapSet (ps : List (String × Habit)) (acc : HabitMap) (k : String) :
    mapGet (ps.foldl (fun m p => mapSet m p.1 p.2) acc) k =
      match lastPair ps k with
      | some v => some v
      | none => mapGet acc k := by
  induction ps generalizing acc with
  | nil => simp [lastPair]
  | cons p rest ih =>
      simp only [List.foldl_cons, ih (mapSet acc p.1 p.2), lastPair]
      cases h : lastPair rest k with
      | some v => simp
      | none =>
          by_cases hk : p.1 = k
          · subst hk
            simp [mapGet_mapSet_self]
          · simp [hk, mapGet_mapSet_ne acc p.1 k p.2 hk]

theorem lastPair_map_id (hs : List Habit) (k : String) :
    lastPair (hs.map fun h => (h.id, h)) k = lastWithId hs k := by
  induction hs with
  | nil => rfl
  | cons h rest ih => simp [lastPair, lastWithId, ih]

/-- C7: loading a persisted sequence succeeds with the mapping built by
keying each record by its `id`, and the record found at any id is the last
record in the file bearing that id — later duplicate-id entries overwrite
earlier ones. -/
theorem load_lastWriteWins (filePath : String) (hs : List Habit) (id : String) :
    HabitStore.load filePath (.doc hs) =
      .ok (mapOfPairs (hs.map fun h => (h.id, h)), .doc hs) ∧
    mapGet (mapOfPairs (hs.map fun h => (h.id, h))) id = lastWithId hs id := by
  refine ⟨rfl, ?_⟩
  rw [mapOfPairs, mapGet_foldl_mapSet, lastPair_map_id]
  cases lastWithId hs id <;> simp [mapGet]

/-! ## C2: logCompletion is idempotent -/

theorem logCompletionMap_of_mem (m : HabitMap) (id date : String) (h : Habit)
    (hg : mapGet m id = some h) (hd : date ∈ h.completions) :
    HabitStore.logCompletionMap m id date = m := by
  simp [HabitStore.logCompletionMap, HabitStore.logCompletion, hg, hd]

theorem logCompletionMap_of_not_mem (m : HabitMap) (id date : String) (h : Habit)
    (hg : mapGet m id = some h) (hd : date ∉ h.completions) :
    HabitStore.logCompletionMap m id date =
      mapSet m id { h with completions := h.completions ++ [date] } := by
  simp [HabitStore.logCompletionMap, HabitStore.logCompletion, hg, hd]

/-- C2: when `date` is already among the stored habit's completions, the
call returns the map unchanged and writes nothing; otherwise it appends
`date` and persists the new collection; hence two calls with the same
`date` (starting from a habit holding `date` at most once) leave `date`
appearing exactly once in that habit's completions; and a call on an absent
id fails with the not-found error. -/
theorem logCompletion_idempotent (m : HabitMap) (id date : String) :
    (∀ h, mapGet m id = some h → date ∈ h.completions →
        HabitStore.logCompletion m id date = .ok (m, none)) ∧
    (∀ h, mapGet m id = some h → date ∉ h.completions →
        HabitStore.logCompletion m id date =
          .ok (mapSet m id { h with completions := h.completions ++ [date] },
            some (HabitStore.save
              (mapSet m id { h with completions := h.completions ++ [date] })))) ∧
    (∀ h, mapGet m id = some h → h.completions.count date ≤ 1 →
        ∃ h₂, mapGet (HabitStore.logCompletionMap
            (HabitStore.logCompletionMap m id date) id date) id = some h₂ ∧
          h₂.completions.count date = 1) ∧
    (mapGet m id = none →
        HabitStore.logCompletion m id date =
          .error (.notFound (HabitStore.notFoundMsg id))) := by
  refine ⟨?_, ?_, ?_, ?_⟩
  · intro h hg hd
    simp [HabitStore.logCompletion, hg, hd]
  · intro h hg hd
    simp [HabitStore.logCompletion, hg, hd]
  · intro h hg hcnt
    by_cases hd : date ∈ h.completions
    · rw [logCompletionMap_of_mem m id date h hg hd,
        logCompletionMap_of_mem m id date h hg hd]
      refine ⟨h, hg, ?_⟩
      have h1 : 0 < h.completions.count date := List.count_pos_iff.mpr hd
      omega
    · rw [logCompletionMap_of_not_mem m id date h hg hd]
      have hg₁ : mapGet (mapSet m id { h with completions := h.completions ++ [date] }) id
          = some { h with completions := h.completions ++ [date] } :=
        mapGet_mapSet_self m id _
      have hd₁ : date ∈ ({ h with completions := h.completions ++ [date] } : Habit).completions := by
        simp
      rw [logCompletionMap_of_mem _ id date _ hg₁ hd₁]
      refine ⟨_, hg₁, ?_⟩
      have h0 : h.completions.count date = 0 := List.count_eq_zero.mpr hd
      simp [List.count_append, h0]
  · intro hg
    simp [HabitStore.logCompletion, hg]

/-- A concrete habit for the C2 witness. -/
def c2Habit : Habit :=
  { id := "a", name := "Journal", frequency := .daily,
    completions := [], createdAt := "t0" }

/-- Witness for C2: logging the same date twice on a fresh habit leaves it
with that date exactly once. -/
theorem logCompletion_idempotent_witness :
    ∃ h₂, mapGet (HabitStore.logCompletionMap
        (HabitStore.logCompletionMap [("a", c2Habit)] "a" "2024-03-15")
        "a" "2024-03-15") "a" = some h₂ ∧
      h₂.completions.count "2024-03-15" = 1 :=
  (logCompletion_idempotent [("a", c2Habit)] "a" "2024-03-15").2.2.1 c2Habit
    (by decide) (by decide)

/-! ## C3: updateHabit merge semantics -/

theorem id_of_mapGet (m : HabitMap) (k : String) (v : Habit)
    (hkc : KeyConsistent m) (hg : mapGet m k = some v) : v.id = k :=
  hkc (k, v) (mem_of_mapGet m k v hg)

/-- C3: `updateHabit` on an absent id fails with the habit-not-found error
and leaves the mapping unchanged; on a present id it returns the record
built by merging the patch over the existing record with `id` re-forced to
the original record's id, stores that record in the mapping, and persists
the collection. -/
theorem updateHabit_spec (m : HabitMap) (id : String) (patch : HabitStore.HabitPatch) :
    (mapGet m id = none →
        HabitStore.updateHabit m id patch =
          .error (.notFound (HabitStore.notFoundMsg id)) ∧
        HabitStore.updateHabitMap m id patch = m) ∧
    (∀ h, mapGet m id = some h → KeyConsistent m →
        HabitStore.updateHabit m id patch =
          .ok (HabitStore.mergePatch h patch id,
               mapSet m id (HabitStore.mergePatch h patch id),
               HabitStore.save (mapSet m id (HabitStore.mergePatch h patch id))) ∧
        (HabitStore.mergePatch h patch id).id = h.id ∧
        mapGet (mapSet m id (HabitStore.mergePatch h patch id)) id =
          some (HabitStore.mergePatch h patch id)) := by
  constructor
  · intro hg
    constructor
    · simp [HabitStore.updateHabit, hg]
    · simp [HabitStore.updateHabitMap, HabitStore.updateHabit, hg]
  · intro h hg hkc
    refine ⟨?_, ?_, mapGet_mapSet_self m id _⟩
    · simp [HabitStore.updateHabit, hg]
    · simp [HabitStore.mergePatch, id_of_mapGet m id h hkc hg]

/-- A concrete habit for the C3 witness. -/
def c3Habit : Habit :=
  { id := "a", name := "Swim", frequency := .daily,
    completions := [], createdAt := "t0" }

/-- A concrete patch for the C3 witness: rename and change frequency. -/
def c3Patch : HabitStore.HabitPatch :=
  { name := some "Swim laps", frequency := some .weekly }

/-- Witness for C3 at a concrete one-habit mapping and patch. -/
theorem updateHabit_spec_witness :
    HabitStore.updateHabit [("a", c3Habit)] "a" c3Patch =
      .ok (HabitStore.mergePatch c3Habit c3Patch "a",
           mapSet [("a", c3Habit)] "a" (HabitStore.mergePatch c3Habit c3Patch "a"),
           HabitStore.save
             (mapSet [("a", c3Habit)] "a" (HabitStore.mergePatch c3Habit c3Patch "a"))) ∧
    (HabitStore.mergePatch c3Habit c3Patch "a").id = c3Habit.id ∧
    mapGet (mapSet [("a", c3Habit)] "a" (HabitStore.mergePatch c3Habit c3Patch "a")) "a" =
      some (HabitStore.mergePatch c3Habit c3Patch "a") :=
  (updateHabit_spec [("a", c3Habit)] "a" c3Patch).2 c3Habit (by decide)
    (by unfold KeyConsistent; decide)

/-! ## C4: id is preserved by update, but createdAt is not -/

/-- A concrete habit showing C4 fails: its `createdAt` is `t0`. -/
def c4Habit : Habit :=
  { id := "a", name := "Run", frequency := .daily,
    completions := [], createdAt := "t0" }

/-- A patch carrying a `createdAt` field. -/
def c4Patch : HabitStore.HabitPatch :=
  { createdAt := some "t9" }

/-- Counterexample to C4 as stated: updating the habit whose `createdAt` is
`t0` with a patch carrying `createdAt := t9` stores a record whose
`createdAt` is `t9` — the update altered `createdAt`.  (`updateHabit`
re-forces only `id`; a patch may overwrite `createdAt`.) -/
theorem updateHabit_createdAt_counterexample :
    (HabitStore.getHabit [("a", c4Habit)] "a").map Habit.createdAt = some "t0" ∧
    (HabitStore.getHabit
        (HabitStore.updateHabitMap [("a", c4Habit)] "a" c4Patch) "a").map
      Habit.createdAt = some "t9" := by
  constructor
  · decide
  · decide

/-- C4 amended: the record resulting from `updateHabit` always keeps the
original `id`, and keeps the original `createdAt` whenever the patch does
not itself carry a `createdAt` field. -/
theorem updateHabit_preserves_id_createdAt (m : HabitMap) (id : String)
    (patch : HabitStore.HabitPatch) (h : Habit)
    (hg : mapGet m id = some h) (hkc : KeyConsistent m)
    (hpc : patch.createdAt = none) :
    ∃ m₁ f, HabitStore.updateHabit m id patch =
        .ok (HabitStore.mergePatch h patch id, m₁, f) ∧
      (HabitStore.mergePatch h patch id).id = h.id ∧
      (HabitStore.mergePatch h patch id).createdAt = h.createdAt := by
  refine ⟨mapSet m id (HabitStore.mergePatch h patch id),
    HabitStore.save (mapSet m id (HabitStore.mergePatch h patch id)), ?_, ?_, ?_⟩
  · simp [HabitStore.updateHabit, hg]
  · simp [HabitStore.mergePatch, id_of_mapGet m id h hkc hg]
  · simp [HabitStore.mergePatch, hpc]

/-- Witness for the amended C4 at a concrete mapping and a patch without
`createdAt`. -/
theorem updateHabit_preserves_id_createdAt_witness :
    ∃ m₁ f, HabitStore.updateHabit [("a", c4Habit)] "a" c3Patch =
        .ok (HabitStore.mergePatch c4Habit c3Patch "a", m₁, f) ∧
      (HabitStore.mergePatch c4Habit c3Patch "a").id = c4Habit.id ∧
      (HabitStore.mergePatch c4Habit c3Patch "a").createdAt = c4Habit.createdAt :=
  updateHabit_preserves_id_createdAt [("a", c4Habit)] "a" c3Patch c4Habit
    (by decide) (by unfold KeyConsistent; decide) (by decide)

/-! ## C5: no duplicate completion dates -/

/-- The C5 invariant: every record held in the mapping has duplicate-free
completions. -/
def CompletionsNodup (m : HabitMap) : Prop :=
  ∀ p ∈ m, (p.2).completions.Nodup

theorem mem_foldl_mapSet (ps : List (String × Habit)) (acc : HabitMap)
    (p : String × Habit)
    (hp : p ∈ ps.foldl (fun m q => mapSet m q.1 q.2) acc) :
    p ∈ acc ∨ p.2 ∈ ps.map Prod.snd := by
  induction ps generalizing acc with
  | nil => simp_all
  | cons q rest ih =>
      simp only [List.foldl_cons] at hp
      rcases ih (mapSet acc q.1 q.2) hp with h | h
      · rcases mem_mapSet acc q.1 q.2 p h with h | h
        · right; rw [h]; simp
        · left; exact h
      · right
        simp only [List.map_cons, List.mem_cons]
        right; exact h

/-- Caller attributes carrying duplicate completion dates, for the C5
counterexample. -/
def c5Attrs : HabitStore.AddAttrs :=
  { name := "Run", frequency := .daily,
    completions := some ["2024-01-01", "2024-01-01"] }

/-- Counterexample to C5 as stated: `addHabit` stores caller-supplied
completions verbatim, so supplying a duplicated date leaves the mapping
holding a record whose completions are not duplicate-free. -/
theorem completions_nodup_counterexample :
    ¬ CompletionsNodup (HabitStore.addHabit [] c5Attrs "g1" "t1").2.1 := by
  unfold CompletionsNodup
  decide

/-- C5 amended: each store operation preserves the no-duplicate-completions
invariant provided its own inputs respect it — a loaded document whose
records all have duplicate-free completions yields a mapping satisfying the
invariant, and `addHabit`/`updateHabit` preserve it when the caller-supplied
completions (if any) are duplicate-free; `logCompletion` preserves it
unconditionally, since it only appends a date that is not yet present. -/
theorem completions_nodup_preserved (m : HabitMap) (filePath : String) :
    (∀ hs m₁ f, (∀ h ∈ hs, h.completions.Nodup) →
        HabitStore.load filePath (.doc hs) = .ok (m₁, f) →
        CompletionsNodup m₁) ∧
    (∀ attrs genId now, CompletionsNodup m →
        (∀ cs, attrs.completions = some cs → cs.Nodup) →
        CompletionsNodup (HabitStore.addHabit m attrs genId now).2.1) ∧
    (∀ id patch, CompletionsNodup m →
        (∀ cs, patch.completions = some cs → cs.Nodup) →
        CompletionsNodup (HabitStore.updateHabitMap m id patch)) ∧
    (∀ id date, CompletionsNodup m →
        CompletionsNodup (HabitStore.logCompletionMap m id date)) := by
  refine ⟨?_, ?_, ?_, ?_⟩
  · intro hs m₁ f hnd hload p hp
    simp only [HabitStore.load, Except.ok.injEq, Prod.mk.injEq] at hload
    obtain ⟨hm, -⟩ := hload
    subst hm
    rcases mem_foldl_mapSet _ [] p hp with h | h
    · simp at h
    · simp only [List.map_map] at h
      obtain ⟨h₀, hh₀, hv⟩ := List.mem_map.mp h
      have : p.2 = h₀ := by simpa using hv.symm
      rw [this]
      exact hnd h₀ hh₀
  · intro attrs genId now hinv hcs p hp
    rcases mem_mapSet m _ _ p hp with h | h
    · rw [h]
      cases hattr : attrs.completions with
      | none => simp [hattr]
      | some cs => simpa [hattr] using hcs cs hattr
    · exact hinv p h
  · intro id patch hinv hcs p hp
    cases hg : mapGet m id with
    | none =>
        rw [HabitStore.updateHabitMap] at hp
        simp only [HabitStore.updateHabit, hg] at hp
        exact hinv p hp
    | some h =>
        rw [HabitStore.updateHabitMap] at hp
        simp only [HabitStore.updateHabit, hg] at hp
        rcases mem_mapSet m id _ p hp with he | he
        · rw [he]
          cases hpat : patch.completions with
          | none =>
              have := hinv (id, h) (mem_of_mapGet m id h hg)
              simpa [HabitStore.mergePatch, hpat] using this
          | some cs => simpa [HabitStore.mergePatch, hpat] using hcs cs hpat
        · exact hinv p he
  · intro id date hinv p hp
    cases hg : mapGet m id with
    | none =>
        rw [HabitStore.logCompletionMap] at hp
        simp only [HabitStore.logCompletion, hg] at hp
        exact hinv p hp
    | some h =>
        by_cases hd : date ∈ h.completions
        · rw [logCompletionMap_of_mem m id date h hg hd] at hp
          exact hinv p hp
        · rw [logCompletionMap_of_not_mem m id date h hg hd] at hp
          rcases mem_mapSet m id _ p hp with he | he
          · rw [he]
            have hhn : h.completions.Nodup := hinv (id, h) (mem_of_mapGet m id h hg)
            have happ : (h.completions ++ [date]).Nodup := by
              rw [List.nodup_append]
              refine ⟨hhn, List.nodup_singleton date, ?_⟩
              intro a ha hmem
              rw [List.mem_singleton] at hmem
              subst hmem
              exact hd ha
            simpa using happ
          · exact hinv p he

/-- Witness for the amended C5: logging a completion on a concrete mapping
satisfying the invariant preserves it. -/
theorem completions_nodup_preserved_witness :
    CompletionsNodup
      (HabitStore.logCompletionMap [("a", c2Habit)] "a" "2024-03-15") :=
  (completions_nodup_preserved [("a", c2Habit)] "p").2.2.2 "a" "2024-03-15"
    (by unfold CompletionsNodup; decide)

/-! ## C8: addHabit defaulting -/

/-- C8: the record `addHabit` returns (and stores, and persists) takes the
caller's id when supplied and the freshly generated one otherwise (non-empty
since the generator's output is non-empty), defaults `completions` to the
empty list and `createdAt` to the current timestamp, and carries a
`description` exactly when the caller supplied one. -/
theorem addHabit_defaults (m : HabitMap) (attrs : HabitStore.AddAttrs)
    (genId now : String) (hgen : genId ≠ "") :
    (HabitStore.addHabit m attrs genId now).1.id = attrs.id.getD genId ∧
    (attrs.id = none → (HabitStore.addHabit m attrs genId now).1.id ≠ "") ∧
    (attrs.completions = none →
      (HabitStore.addHabit m attrs genId now).1.completions = []) ∧
    (attrs.createdAt = none →
      (HabitStore.addHabit m attrs genId now).1.createdAt = now) ∧
    (HabitStore.addHabit m attrs genId now).1.description = attrs.description ∧
    HabitStore.getHabit (HabitStore.addHabit m attrs genId now).2.1
        (HabitStore.addHabit m attrs genId now).1.id =
      some (HabitStore.addHabit m attrs genId now).1 ∧
    (HabitStore.addHabit m attrs genId now).2.2 =
      HabitStore.save (HabitStore.addHabit m attrs genId now).2.1 := by
  refine ⟨by simp [HabitStore.addHabit], ?_, ?_, ?_,
    by simp [HabitStore.addHabit], ?_, by simp [HabitStore.addHabit]⟩
  · intro hid
    simp [HabitStore.addHabit, hid, hgen]
  · intro hc
    simp [HabitStore.addHabit, hc]
  · intro hc
    simp [HabitStore.addHabit, hc]
  · simp only [HabitStore.addHabit, HabitStore.getHabit]
    exact mapGet_mapSet_self m _ _

/-- Caller attributes for the C8 witness: name and frequency only. -/
def c8Attrs : HabitStore.AddAttrs :=
  { name := "Meditate", frequency := .daily }

/-- Witness for C8 at a concrete call with a generated id and timestamp. -/
theorem addHabit_defaults_witness :
    (HabitStore.addHabit [] c8Attrs "uuid-1" "t0").1.id = c8Attrs.id.getD "uuid-1" ∧
    (c8Attrs.id = none → (HabitStore.addHabit [] c8Attrs "uuid-1" "t0").1.id ≠ "") ∧
    (c8Attrs.completions = none →
      (HabitStore.addHabit [] c8Attrs "uuid-1" "t0").1.completions = []) ∧
    (c8Attrs.createdAt = none →
      (HabitStore.addHabit [] c8Attrs "uuid-1" "t0").1.createdAt = "t0") ∧
    (HabitStore.addHabit [] c8Attrs "uuid-1" "t0").1.description = c8Attrs.description ∧
    HabitStore.getHabit (HabitStore.addHabit [] c8Attrs "uuid-1" "t0").2.1
        (HabitStore.addHabit [] c8Attrs "uuid-1" "t0").1.id =
      some (HabitStore.addHabit [] c8Attrs "uuid-1" "t0").1 ∧
    (HabitStore.addHabit [] c8Attrs "uuid-1" "t0").2.2 =
      HabitStore.save (HabitStore.addHabit [] c8Attrs "uuid-1" "t0").2.1 :=
  addHabit_defaults [] c8Attrs "uuid-1" "t0" (by decide)

/-! ## C9: deleteHabit semantics -/

theorem mapGet_mapDelete_self (m : HabitMap) (k : String) (hwf : MapWF m) :
    mapGet (mapDelete m k) k = none := by
  induction m with
  | nil => rfl
  | cons p rest ih =>
      obtain ⟨k₀, v₀⟩ := p
      unfold MapWF at hwf
      simp only [List.map_cons, List.nodup_cons] at hwf
      by_cases hk : k₀ = k
      · subst hk
        simp only [mapDelete, if_pos rfl]
        exact mapGet_eq_none_of_not_mem rest k₀ hwf.1
      · simp only [mapDelete, if_neg hk, mapGet, if_neg hk]
        exact ih hwf.2

/-- C9: when `id` is absent, `deleteHabit` returns `false` with the mapping
untouched and no write; when present it removes the record, persists, and
returns `true` — after which the id is gone and a second call returns
`false` without changing the mapping further. -/
theorem deleteHabit_spec (m : HabitMap) (id : String) (hwf : MapWF m) :
    (mapHas m id = false → HabitStore.deleteHabit m id = (false, m, none)) ∧
    (mapHas m id = true →
        HabitStore.deleteHabit m id =
          (true, mapDelete m id, some (HabitStore.save (mapDelete m id))) ∧
        mapGet (mapDelete m id) id = none ∧
        HabitStore.deleteHabit (mapDelete m id) id =
          (false, mapDelete m id, none)) := by
  constructor
  · intro h
    simp [HabitStore.deleteHabit, h]
  · intro h
    have hgone : mapGet (mapDelete m id) id = none := mapGet_mapDelete_self m id hwf
    refine ⟨by simp [HabitStore.deleteHabit, h], hgone, ?_⟩
    have hhas : mapHas (mapDelete m id) id = false := by
      simp [mapHas, hgone]
    simp [HabitStore.deleteHabit, hhas]

/-- Witness for C9 at a concrete one-habit mapping. -/
theorem deleteHabit_spec_witness :
    HabitStore.deleteHabit [("a", c2Habit)] "a" =
      (true, mapDelete [("a", c2Habit)] "a",
       some (HabitStore.save (mapDelete [("a", c2Habit)] "a"))) ∧
    mapGet (mapDelete [("a", c2Habit)] "a") "a" = none ∧
    HabitStore.deleteHabit (mapDelete [("a", c2Habit)] "a") "a" =
      (false, mapDelete [("a", c2Habit)] "a", none) :=
  (deleteHabit_spec [("a", c2Habit)] "a" (by unfold MapWF; decide)).2 (by decide)

/-! ## C10: addHabit with an existing id silently replaces -/

theorem mapSize_mapSet_of_mem (m : HabitMap) (k : String) (v : Habit)
    (hk : mapHas m k = true) : mapSize (mapSet m k v) = mapSize m := by
  induction m with
  | nil => simp [mapHas, mapGet] at hk
  | cons p rest ih =>
      obtain ⟨k₀, v₀⟩ := p
      by_cases h : k₀ = k
      · simp [mapSet, h, mapSize]
      · simp only [mapHas, mapGet, if_neg h] at hk
        simp only [mapSet, if_neg h, mapSize, List.length_cons]
        exact congrArg Nat.succ (ih hk)

/-- C10: calling `addHabit` with a caller-supplied id already present in
the mapping raises no error (the operation is total), keeps the number of
stored habits unchanged, and makes `getHabit` on that id return the new
record. -/
theorem addHabit_existing_id_replaces (m : HabitMap) (attrs : HabitStore.AddAttrs)
    (k genId now : String) (hid : attrs.id = some k) (hk : mapHas m k = true) :
    (HabitStore.addHabit m attrs genId now).1.id = k ∧
    mapSize (HabitStore.addHabit m attrs genId now).2.1 = mapSize m ∧
    HabitStore.getHabit (HabitStore.addHabit m attrs genId now).2.1 k =
      some (HabitStore.addHabit m attrs genId now).1 := by
  refine ⟨by simp [HabitStore.addHabit, hid], ?_, ?_⟩
  · simp only [HabitStore.addHabit, hid, Option.getD_some]
    exact mapSize_mapSet_of_mem m k _ hk
  · simp only [HabitStore.addHabit, hid, Option.getD_some, HabitStore.getHabit]
    exact mapGet_mapSet_self m k _

/-- Caller attributes for the C10 witness: a caller-supplied id colliding
with the stored habit. -/
def c10Attrs : HabitStore.AddAttrs :=
  { name := "New", frequency := .weekly, id := some "a" }

/-- Witness for C10: adding over the existing id `a` keeps one habit and
`getHabit` returns the replacement. -/
theorem addHabit_existing_id_replaces_witness :
    (HabitStore.addHabit [("a", c2Habit)] c10Attrs "g" "t").1.id = "a" ∧
    mapSize (HabitStore.addHabit [("a", c2Habit)] c10Attrs "g" "t").2.1 =
      mapSize [("a", c2Habit)] ∧
    HabitStore.getHabit (HabitStore.addHabit [("a", c2Habit)] c10Attrs "g" "t").2.1 "a" =
      some (HabitStore.addHabit [("a", c2Habit)] c10Attrs "g" "t").1 :=
  addHabit_existing_id_replaces [("a", c2Habit)] c10Attrs "a" "g" "t"
    (by decide) (by decide)

/-! ## The store maintains the Map invariants

The hypotheses `MapWF` (pairwise-distinct keys, as a JavaScript `Map`
guarantees) and `KeyConsistent` (each entry keyed by its record's own id)
used above are genuine invariants: every operation of the store preserves
them, and `load` establishes them. -/

theorem mem_mapSet_eq (m : HabitMap) (k : String) (v : Habit) (p : String × Habit)
    (hp : p ∈ mapSet m k v) : p = (k, v) ∨ p ∈ m := by
  induction m with
  | nil => simp only [mapSet, List.mem_singleton] at hp; left; exact hp
  | cons q rest ih =>
      obtain ⟨k₀, v₀⟩ := q
      by_cases hk : k₀ = k
      · simp only [mapSet, if_pos hk, List.mem_cons] at hp
        rcases hp with hp | hp
        · left; rw [hp, hk]
        · right; exact List.mem_cons_of_mem _ hp
      · simp only [mapSet, if_neg hk, List.mem_cons] at hp
        rcases hp with hp | hp
        · right; rw [hp]; exact List.mem_cons_self _ _
        · rcases ih hp with h | h
          · left; exact h
          · right; exact List.mem_cons_of_mem _ h

theorem mem_keys_mapSet (m : HabitMap) (k k' : String) (v : Habit)
    (h : k' ∈ (mapSet m k v).map Prod.fst) : k' ∈ m.map Prod.fst ∨ k' = k := by
  obtain ⟨p, hp, hpk⟩ := List.mem_map.mp h
  rcases mem_mapSet_eq m k v p hp with he | he
  · right
    rw [he] at hpk
    exact hpk.symm
  · left
    exact hpk ▸ List.mem_map_of_mem Prod.fst he

theorem mapWF_mapSet (m : HabitMap) (k : String) (v : Habit) (hwf : MapWF m) :
    MapWF (mapSet m k v) := by
  induction m with
  | nil => unfold MapWF mapSet; simp
  | cons p rest ih =>
      obtain ⟨k₀, v₀⟩ := p
      unfold MapWF at hwf ⊢
      simp only [List.map_cons, List.nodup_cons] at hwf
      by_cases hk : k₀ = k
      · simp only [mapSet, if_pos hk, List.map_cons, List.nodup_cons]
        exact hwf
      · simp only [mapSet, if_neg hk, List.map_cons, List.nodup_cons]
        refine ⟨?_, ih hwf.2⟩
        intro hmem
        rcases mem_keys_mapSet rest k k₀ v hmem with h | h
        · exact hwf.1 h
        · exact hk h

theorem keyConsistent_mapSet (m : HabitMap) (k : String) (v : Habit)
    (hkc : KeyConsistent m) (hv : v.id = k) : KeyConsistent (mapSet m k v) := by
  intro p hp
  rcases mem_mapSet_eq m k v p hp with he | he
  · rw [he]; exact hv
  · exact hkc p he

theorem mem_mapDelete (m : HabitMap) (k : String) (p : String × Habit)
    (hp : p ∈ mapDelete m k) : p ∈ m := by
  induction m with
  | nil => simp [mapDelete] at hp
  | cons q rest ih =>
      obtain ⟨k₀, v₀⟩ := q
      by_cases hk : k₀ = k
      · simp only [mapDelete, if_pos hk] at hp
        exact List.mem_cons_of_mem _ hp
      · simp only [mapDelete, if_neg hk, List.mem_cons] at hp
        rcases hp with hp | hp
        · rw [hp]; exact List.mem_cons_self _ _
        · exact List.mem_cons_of_mem _ (ih hp)

theorem mapWF_mapDelete (m : HabitMap) (k : String) (hwf : MapWF m) :
    MapWF (mapDelete m k) := by
  induction m with
  | nil => exact hwf
  | cons p rest ih =>
      obtain ⟨k₀, v₀⟩ := p
      unfold MapWF at hwf ⊢
      simp only [List.map_cons, List.nodup_cons] at hwf
      by_cases hk : k₀ = k
      · simp only [mapDelete, if_pos hk]
        exact hwf.2
      · simp only [mapDelete, if_neg hk, List.map_cons, List.nodup_cons]
        refine ⟨?_, ih hwf.2⟩
        intro hmem
        obtain ⟨q, hq, hqk⟩ := List.mem_map.mp hmem
        exact hwf.1 (hqk ▸ List.mem_map_of_mem Prod.fst (mem_mapDelete rest k q hq))

theorem keyConsistent_mapDelete (m : HabitMap) (k : String)
    (hkc : KeyConsistent m) : KeyConsistent (mapDelete m k) :=
  fun p hp => hkc p (mem_mapDelete m k p hp)

theorem invariants_foldl_mapSet (ps : List (String × Habit)) (acc : HabitMap)
    (hps : ∀ p ∈ ps, (p.2).id = p.1) (hwf : MapWF acc) (hkc : KeyConsistent acc) :
    MapWF (ps.foldl (fun m p => mapSet m p.1 p.2) acc) ∧
    KeyConsistent (ps.foldl (fun m p => mapSet m p.1 p.2) acc) := by
  induction ps generalizing acc with
  | nil => exact ⟨hwf, hkc⟩
  | cons p rest ih =>
      simp only [List.foldl_cons]
      exact ih (mapSet acc p.1 p.2)
        (fun q hq => hps q (List.mem_cons_of_mem _ hq))
        (mapWF_mapSet acc p.1 p.2 hwf)
        (keyConsistent_mapSet acc p.1 p.2 hkc (hps p (List.mem_cons_self _ _)))

/-- `load` establishes both invariants on every successful path. -/
theorem load_establishes_invariants (filePath : String) (file : FsFile)
    (m₁ : HabitMap) (f : FsFile)
    (h : HabitStore.load filePath file = .ok (m₁, f)) :
    MapWF m₁ ∧ KeyConsistent m₁ := by
  cases file with
  | absent =>
      simp only [HabitStore.load, Except.ok.injEq, Prod.mk.injEq] at h
      rw [← h.1]
      exact ⟨by unfold MapWF; simp, by intro p hp; simp at hp⟩
  | readFailure e => simp [HabitStore.load] at h
  | notJSON raw => simp [HabitStore.load] at h
  | nullDoc => simp [HabitStore.load] at h
  | habitsNotArray => simp [HabitStore.load] at h
  | doc hs =>
      simp only [HabitStore.load, Except.ok.injEq, Prod.mk.injEq] at h
      rw [← h.1, mapOfPairs]
      refine invariants_foldl_mapSet _ [] ?_ (by unfold MapWF; simp)
        (by intro p hp; simp at hp)
      intro p hp
      obtain ⟨h₀, -, he⟩ := List.mem_map.mp hp
      rw [← he]

/-- Every mutating operation preserves both invariants. -/
theorem operations_preserve_invariants (m : HabitMap)
    (hwf : MapWF m) (hkc : KeyConsistent m) :
    (∀ attrs genId now,
        MapWF (HabitStore.addHabit m attrs genId now).2.1 ∧
        KeyConsistent (HabitStore.addHabit m attrs genId now).2.1) ∧
    (∀ id patch,
        MapWF (HabitStore.updateHabitMap m id patch) ∧
        KeyConsistent (HabitStore.updateHabitMap m id patch)) ∧
    (∀ id,
        MapWF (HabitStore.deleteHabit m id).2.1 ∧
        KeyConsistent (HabitStore.deleteHabit m id).2.1) ∧
    (∀ id date,
        MapWF (HabitStore.logCompletionMap m id date) ∧
        KeyConsistent (HabitStore.logCompletionMap m id date)) := by
  refine ⟨?_, ?_, ?_, ?_⟩
  · intro attrs genId now
    exact ⟨mapWF_mapSet m _ _ hwf, keyConsistent_mapSet m _ _ hkc rfl⟩
  · intro id patch
    cases hg : mapGet m id with
    | none =>
        rw [HabitStore.updateHabitMap]
        simp only [HabitStore.updateHabit, hg]
        exact ⟨hwf, hkc⟩
    | some h =>
        rw [HabitStore.updateHabitMap]
        simp only [HabitStore.updateHabit, hg]
        exact ⟨mapWF_mapSet m _ _ hwf, keyConsistent_mapSet m _ _ hkc rfl⟩
  · intro id
    by_cases hh : mapHas m id = true
    · simp only [HabitStore.deleteHabit, hh, if_pos]
      exact ⟨mapWF_mapDelete m id hwf, keyConsistent_mapDelete m id hkc⟩
    · simp only [HabitStore.deleteHabit, hh]
      exact ⟨hwf, hkc⟩
  · intro id date
    cases hg : mapGet m id with
    | none =>
        rw [HabitStore.logCompletionMap]
        simp only [HabitStore.logCompletion, hg]
        exact ⟨hwf, hkc⟩
    | some h =>
        by_cases hd : date ∈ h.completions
        · rw [logCompletionMap_of_mem m id date h hg hd]
          exact ⟨hwf, hkc⟩
        · rw [logCompletionMap_of_not_mem m id date h hg hd]
          refine ⟨mapWF_mapSet m _ _ hwf, keyConsistent_mapSet m _ _ hkc ?_⟩
          exact id_of_mapGet m id h hkc hg

end Streakr
